import Mathlib

/-!
Shallow embedding of the `buffer` package (src/buffer.go): a bounded
in-process cache with per-entry TTL / access-count validity and a
two-phase Tidy (reap + trim) pass, plus the single-slot variant.

Modelling conventions:
* Go `int`/`int64` values are `Int` (no arithmetic here approaches 2^63,
  overflow never matters for the stated properties).
* Timestamps (`time.Duration` holding whole seconds, produced by `nowUnix`)
  are `Int` seconds; `Option.Timeout` (`float64`) is `ℚ`, and the
  `t.Seconds()-m.recent.Seconds() <= op.Timeout` comparison is done in `ℚ`
  (all quantities involved are exact in float64 at realistic magnitudes).
* `sync.Map` / `map[int64]*metric` are association lists `List (Int × _)`;
  Go map iteration order is unspecified, the embedding iterates in list
  order. `sort.Slice` (unstable) becomes a stable insertion sort with the
  same strict comparator: same multiset, a fixed tie order.
* The external key generator (`github.com/dongrv/iterator`) is specified
  only by its interface: strictly increasing int64 keys starting at 1.
  It is embedded as an integer counter carried in the state.
* The payload (`proto.Message`) is an opaque type parameter `M`.
-/

set_option linter.unusedVariables false

namespace BufferGo

/-- Go constant `stdLen = 10` (set standard length). -/
def stdLen : Nat := 10

/-- Go constant `stdCap = 20` (set standard capacity). -/
def stdCap : Nat := 20

/-- Go constant `stdTimeout = 10` (expiry time). -/
def stdTimeout : ℚ := 10

/-- Go constant `stdVisits = 5` (maximal visit count). -/
def stdVisits : Int := 5

/-- Go `type Option struct` (named `Opt` here, `Option` is taken by Lean):
`Len` ideal/healthy length, `Cap` capacity, `Timeout` expiry, `Limit`
maximal access count. -/
structure Opt where
  Len : Int
  Cap : Int
  Timeout : ℚ
  Limit : Int
deriving Repr, DecidableEq

/-- Go `OptionFunc`: mutator of an `Opt`, embedded functionally. -/
abbrev OptionFunc := Opt → Opt

/-- Go `DefaultOption()`: sets all four fields to the standard constants. -/
def DefaultOption : OptionFunc :=
  fun op => { op with Len := (stdLen : Int), Cap := (stdCap : Int),
                      Timeout := stdTimeout, Limit := stdVisits }

/-- Go `(op *Option) Validate() bool`:
`(op.Len > 0 && op.Timeout > 0 && op.Limit > 0) && (op.Cap > op.Len)`. -/
def Opt.Validate (op : Opt) : Bool :=
  (decide (0 < op.Len) && decide ((0 : ℚ) < op.Timeout) && decide (0 < op.Limit))
    && decide (op.Len < op.Cap)

/-- Go `type metric struct`: owner key `x`, last-use time `recent`
(zero-valued on creation), use count `used`. -/
structure metric where
  x : Int
  recent : Int
  used : Int
deriving Repr, DecidableEq

/-- Go `newMetric(x)`: zero `recent` and `used`. -/
def newMetric (x : Int) : metric := { x := x, recent := 0, used := 0 }

/-- Go `(m *metric) Incr()`: count and refresh; `t` is `nowUnix()`. -/
def metric.Incr (m : metric) (t : Int) : metric :=
  { m with used := m.used + 1, recent := t }

/-- Go `(m *metric) Reset(x)`: reassign key, set count to 1, refresh. -/
def metric.Reset (m : metric) (x : Int) (t : Int) : metric :=
  { m with x := x, used := 1, recent := t }

/-- Go `(m *metric) can(op, t)`:
`t.Seconds()-m.recent.Seconds() <= op.Timeout && m.used <= op.Limit`. -/
def metric.can (m : metric) (op : Opt) (t : Int) : Bool :=
  decide (((t - m.recent : Int) : ℚ) ≤ op.Timeout) && decide (m.used ≤ op.Limit)

/-! ### Association-list maps (embedding of `sync.Map` and `map[int64]*metric`) -/

/-- First value bound to key `x` (Go map lookup / `sync.Map.Load`). -/
def lookupKey (x : Int) : List (Int × α) → Option α
  | [] => none
  | p :: ps => if p.1 = x then some p.2 else lookupKey x ps

/-- Go map store: replace the binding of `x` if present, else append. -/
def insertKey (x : Int) (v : α) : List (Int × α) → List (Int × α)
  | [] => [(x, v)]
  | p :: ps => if p.1 = x then (x, v) :: ps else p :: insertKey x v ps

/-- Go `delete` / `sync.Map.Delete`: remove the binding of `x`. -/
def eraseKey (x : Int) : List (Int × α) → List (Int × α)
  | [] => []
  | p :: ps => if p.1 = x then ps else p :: eraseKey x ps

/-- In-place update of the value bound to `x` (Go mutation through the
`*metric` pointer held in the map). -/
def updateKey (x : Int) (f : α → α) : List (Int × α) → List (Int × α)
  | [] => []
  | p :: ps => if p.1 = x then (p.1, f p.2) :: ps else p :: updateKey x f ps

/-- Keys of an association list, in order. -/
def keysOf (l : List (Int × α)) : List Int := l.map Prod.fst

/-- Stable insertion into a list sorted ascending by `recent`. -/
def insertByRecent (m : metric) : List metric → List metric
  | [] => [m]
  | n :: ns => if m.recent < n.recent then m :: n :: ns else n :: insertByRecent m ns

/-- Embedding of `sort.Slice(available, recent_i < recent_j)`: sort
ascending by `recent` (insertion sort; ties keep list order, Go's order
for ties is unspecified). -/
def sortByRecent : List metric → List metric
  | [] => []
  | m :: ms => insertByRecent m (sortByRecent ms)

theorem length_eraseKey_le (x : Int) (l : List (Int × α)) :
    (eraseKey x l).length ≤ l.length := by
  induction l with
  | nil => simp [eraseKey]
  | cons p ps ih =>
    simp only [eraseKey]
    split
    · simp
    · simpa using Nat.succ_le_succ ih

/-! ### The Buffer -/

variable {M : Type}

/-- Go `type Buffer struct`: options, payload store, key iterator, metric
table (field `tidy` in the source). -/
structure Buffer (M : Type) where
  op : Opt
  store : List (Int × M)
  iter : Int
  tidy : List (Int × metric)
deriving Repr, DecidableEq

/-- The trim loop of Go `Buffer.Tidy`:
`for i := 0; i < len(b.tidy)-stdLen; i++ { delete available[i] from both }`.
The bound `len(b.tidy)-stdLen` is re-evaluated on every iteration while
deletions shrink the map, exactly as in Go. An out-of-range index would
panic in Go; the embedding stops there (unreachable from reachable states). -/
def trimLoop (i : Nat) (avail : List metric)
    (st : List (Int × M)) (td : List (Int × metric)) :
    List (Int × M) × List (Int × metric) :=
  match avail with
  | [] => (st, td)
  | m :: rest =>
    if (i : Int) < (td.length : Int) - (stdLen : Int) then
      trimLoop (i + 1) rest (eraseKey m.x st) (eraseKey m.x td)
    else (st, td)

/-- Go `(b *Buffer) Tidy()` at current time `t`:
no-op unless `len(b.tidy) > stdCap`; otherwise reap every entry whose
metric fails `can` from both maps (collecting the valid metrics), sort the
survivors ascending by `recent`, and if still more than `stdLen` entries
run the trim loop. -/
def Buffer.Tidy (b : Buffer M) (t : Int) : Buffer M :=
  if b.tidy.length ≤ stdCap then b
  else
    let available := sortByRecent ((b.tidy.filter fun p => p.2.can b.op t).map Prod.snd)
    let store1 := b.store.filter fun p =>
      match lookupKey p.1 b.tidy with
      | some m => m.can b.op t
      | none => true
    let tidy1 := b.tidy.filter fun p => p.2.can b.op t
    if stdLen < tidy1.length then
      let r := trimLoop 0 available store1 tidy1
      { b with store := r.1, tidy := r.2 }
    else
      { b with store := store1, tidy := tidy1 }

/-- Go `(b *Buffer) Read(x)` at current time `t`: absent if `x` is not in
the store or its metric fails `can`; otherwise `Incr` the metric and
return the payload. When `x` is in the store but not in the metric table
Go would dereference a nil `*metric` (a panic); that state is unreachable
(the key sets always agree), the embedding returns absent there. -/
def Buffer.Read (b : Buffer M) (t : Int) (x : Int) : Buffer M × Option M :=
  match lookupKey x b.store with
  | none => (b, none)
  | some value =>
    match lookupKey x b.tidy with
    | none => (b, none)
    | some m =>
      if m.can b.op t then
        ({ b with tidy := updateKey x (fun mm => mm.Incr t) b.tidy }, some value)
      else (b, none)

/-- Go `(b *Buffer) Write(msg)` at current time `t`: take the next key
from the iterator, store the payload, install `newMetric(x).Incr()`, then
run `Tidy`; returns the assigned key. -/
def Buffer.Write (b : Buffer M) (t : Int) (msg : M) : Buffer M × Int :=
  let x := b.iter + 1
  let b1 : Buffer M :=
    { b with iter := x,
             store := insertKey x msg b.store,
             tidy := insertKey x ((newMetric x).Incr t) b.tidy }
  (b1.Tidy t, x)

/-- Go `(b *Buffer) Exist(x)` at current time `t`: store membership plus
`can`, with no mutation. The missing-metric case is Go's nil-pointer
panic, unreachable as in `Buffer.Read`. -/
def Buffer.Exist (b : Buffer M) (t : Int) (x : Int) : Bool :=
  match lookupKey x b.store with
  | none => false
  | some _ =>
    match lookupKey x b.tidy with
    | none => false
    | some m => m.can b.op t

/-- Go `ErrInvalidValue = errors.New("invalid option value")`. -/
inductive BufErr where
  | ErrInvalidValue
deriving Repr, DecidableEq

/-- The option value `New`/`NewSingle` build: `&Option{}` (zero value),
then `DefaultOption()`, then the caller's option functions in order. -/
def buildOpt (options : List OptionFunc) : Opt :=
  options.foldl (fun o fn => fn o)
    (DefaultOption { Len := 0, Cap := 0, Timeout := 0, Limit := 0 })

/-- Go `New(options...)`: validate the built options, fail with
`ErrInvalidValue` otherwise; fresh buffer state. -/
def New (M : Type) (options : List OptionFunc) : Except BufErr (Buffer M) :=
  let op := buildOpt options
  if op.Validate then
    Except.ok { op := op, store := [], iter := 0, tidy := [] }
  else
    Except.error BufErr.ErrInvalidValue

/-! ### The single-slot cache -/

/-- Go `type Single struct`: options, one payload slot (`nil` before the
first write), the shared iterator (embedded as a counter), one metric. -/
structure Single (M : Type) where
  op : Opt
  store : Option M
  iter : Int
  metric : BufferGo.metric
deriving Repr, DecidableEq

/-- Go `NewSingle(options...)`: validate, metric starts as `newMetric(0)`. -/
def NewSingle (M : Type) (options : List OptionFunc) : Except BufErr (Single M) :=
  let op := buildOpt options
  if op.Validate then
    Except.ok { op := op, store := none, iter := 0, metric := newMetric 0 }
  else
    Except.error BufErr.ErrInvalidValue

/-- Go `(s *Single) Read(x)` at time `t`: payload only when `x` matches
the metric's key and the metric passes `can`; the hit counts (`Incr`). -/
def Single.Read (s : Single M) (t : Int) (x : Int) : Single M × Option M :=
  if decide (s.metric.x = x) && s.metric.can s.op t then
    ({ s with metric := s.metric.Incr t }, s.store)
  else (s, none)

/-- Go `(s *Single) Write(msg)` at time `t`: next key from the iterator,
`Reset` the metric to it, overwrite the slot. -/
def Single.Write (s : Single M) (t : Int) (msg : M) : Single M × Int :=
  let x := s.iter + 1
  ({ s with iter := x, metric := s.metric.Reset x t, store := some msg }, x)

/-- Go `(s *Single) Exist(x)` at time `t`: match plus `can`, no mutation. -/
def Single.Exist (s : Single M) (t : Int) (x : Int) : Bool :=
  decide (s.metric.x = x) && s.metric.can s.op t

/-! ### Sequential operation languages (for the invariant claims) -/

/-- One sequential call on a `Buffer`, with the time `nowUnix` returns. -/
inductive BOp (M : Type) where
  | write (t : Int) (msg : M)
  | read (t : Int) (x : Int)
  | exist (t : Int) (x : Int)
  | tidy (t : Int)

/-- State change of one call (`Exist` changes nothing). -/
def Buffer.step (b : Buffer M) : BOp M → Buffer M
  | .write t msg => (b.Write t msg).1
  | .read t x => (b.Read t x).1
  | .exist _ _ => b
  | .tidy t => b.Tidy t

/-- Run a sequence of calls. -/
def Buffer.runOps (b : Buffer M) (ops : List (BOp M)) : Buffer M :=
  ops.foldl Buffer.step b

/-- One sequential call on a `Single`. -/
inductive SOp (M : Type) where
  | write (t : Int) (msg : M)
  | read (t : Int) (x : Int)
  | exist (t : Int) (x : Int)

/-- State change of one `Single` call. -/
def Single.step (s : Single M) : SOp M → Single M
  | .write t msg => (s.Write t msg).1
  | .read t x => (s.Read t x).1
  | .exist _ _ => s

/-- Run a sequence of `Single` calls. -/
def Single.runOps (s : Single M) (ops : List (SOp M)) : Single M :=
  ops.foldl Single.step s

/-- Repeated `Read`s of the fixed key `x` at the given times, collecting
each result. -/
def Buffer.readsAt (b : Buffer M) (x : Int) : List Int → Buffer M × List (Option M)
  | [] => (b, [])
  | t :: ts =>
    let r := b.Read t x
    let rest := r.1.readsAt x ts
    (rest.1, r.2 :: rest.2)

/-- The times `ts` never let the TTL lapse: each is within `op.Timeout`
seconds of the previous touch (starting from `r`). -/
def chainOk (op : Opt) (r : Int) : List Int → Bool
  | [] => true
  | t :: ts => decide (((t - r : Int) : ℚ) ≤ op.Timeout) && chainOk op t ts

/-! ### Concrete states for evaluation -/

/-- A buffer in the default configuration holding 21 entries (capacity
exceeded), all of whose metrics are valid at time 100. -/
def exampleOverCap : Buffer Int :=
  { op := { Len := 10, Cap := 20, Timeout := 10, Limit := 5 },
    store := (List.range 21).map (fun k => ((k : Int) + 1, (k : Int))),
    iter := 21,
    tidy := (List.range 21).map
      (fun k => ((k : Int) + 1, { x := (k : Int) + 1, recent := 100, used := 1 })) }

/-- A buffer configured with `Len = 2`, `Cap = 3` holding 4 valid
entries: past its configured capacity, below the hard-wired `stdCap`. -/
def exampleSmallCap : Buffer Int :=
  { op := { Len := 2, Cap := 3, Timeout := 10, Limit := 5 },
    store := [(1, 10), (2, 20), (3, 30), (4, 40)],
    iter := 4,
    tidy := [(1, { x := 1, recent := 0, used := 1 }),
             (2, { x := 2, recent := 0, used := 1 }),
             (3, { x := 3, recent := 0, used := 1 }),
             (4, { x := 4, recent := 0, used := 1 })] }

/-- The buffer `New(DefaultOption())` yields: default options, empty maps. -/
def freshBuf : Buffer Nat :=
  { op := { Len := 10, Cap := 20, Timeout := 10, Limit := 5 },
    store := [], iter := 0, tidy := [] }

/-- The single-slot cache `NewSingle(DefaultOption())` yields. -/
def singleFresh : Single Nat :=
  { op := { Len := 10, Cap := 20, Timeout := 10, Limit := 5 },
    store := none, iter := 0, metric := newMetric 0 }

/-- A single-slot cache holding key 1, written and last touched at time
100, still valid at time 100. -/
def singleLive : Single Nat :=
  { op := { Len := 10, Cap := 20, Timeout := 10, Limit := 5 },
    store := some 3, iter := 1, metric := { x := 1, recent := 100, used := 1 } }

/-! ### Map lemmas -/

theorem lookupKey_insertKey_self (x : Int) (v : α) (l : List (Int × α)) :
    lookupKey x (insertKey x v l) = some v := by
  induction l with
  | nil => simp [insertKey, lookupKey]
  | cons p ps ih =>
    by_cases h : p.1 = x
    · simp [insertKey, h, lookupKey]
    · simp [insertKey, h, lookupKey, ih]

theorem lookupKey_updateKey_self (x : Int) (f : α → α) (l : List (Int × α))
    (m : α) (h : lookupKey x l = some m) :
    lookupKey x (updateKey x f l) = some (f m) := by
  induction l with
  | nil => simp [lookupKey] at h
  | cons p ps ih =>
    by_cases hp : p.1 = x
    · simp [lookupKey, hp] at h
      subst h
      simp [updateKey, hp, lookupKey]
    · simp only [lookupKey, if_neg hp] at h
      simp [updateKey, hp, lookupKey, ih h]

theorem keysOf_updateKey (x : Int) (f : α → α) (l : List (Int × α)) :
    keysOf (updateKey x f l) = keysOf l := by
  induction l with
  | nil => rfl
  | cons p ps ih =>
    by_cases hp : p.1 = x
    · simp [updateKey, hp, keysOf]
    · simp only [updateKey, if_neg hp]
      simp [keysOf] at ih ⊢
      exact ih

theorem length_insertKey_le (x : Int) (v : α) (l : List (Int × α)) :
    (insertKey x v l).length ≤ l.length + 1 := by
  induction l with
  | nil => simp [insertKey]
  | cons p ps ih =>
    by_cases hp : p.1 = x
    · simp [insertKey, hp]
    · simp only [insertKey, if_neg hp, List.length_cons]
      omega

theorem Tidy_noop (b : Buffer M) (t : Int) (h : b.tidy.length ≤ stdCap) :
    b.Tidy t = b := by
  simp [Buffer.Tidy, h]

theorem eraseKey_sublist (x : Int) (l : List (Int × α)) :
    (eraseKey x l).Sublist l := by
  induction l with
  | nil => simp [eraseKey]
  | cons p ps ih =>
    simp only [eraseKey]
    split
    · exact List.sublist_cons_self p ps
    · exact ih.cons₂ p

theorem trimLoop_sublist (avail : List metric) :
    ∀ (i : Nat) (st : List (Int × M)) (td : List (Int × metric)),
      (trimLoop i avail st td).1.Sublist st ∧ (trimLoop i avail st td).2.Sublist td := by
  induction avail with
  | nil => intro i st td; simp [trimLoop]
  | cons m rest ih =>
    intro i st td
    simp only [trimLoop]
    split
    · obtain ⟨h1, h2⟩ := ih (i + 1) (eraseKey m.x st) (eraseKey m.x td)
      exact ⟨h1.trans (eraseKey_sublist m.x st), h2.trans (eraseKey_sublist m.x td)⟩
    · exact ⟨List.Sublist.refl st, List.Sublist.refl td⟩

theorem Tidy_tidy_sublist (b : Buffer M) (t : Int) :
    ((b.Tidy t).tidy).Sublist b.tidy := by
  unfold Buffer.Tidy
  split
  · exact List.Sublist.refl _
  · dsimp only
    split
    · exact ((trimLoop_sublist _ _ _ _).2).trans (List.filter_sublist b.tidy)
    · exact List.filter_sublist b.tidy

theorem lookupKey_mem_keysOf (x : Int) (l : List (Int × α)) (m : α)
    (h : lookupKey x l = some m) : x ∈ keysOf l := by
  induction l with
  | nil => simp [lookupKey] at h
  | cons p ps ih =>
    by_cases hp : p.1 = x
    · simp [keysOf, hp]
    · simp only [lookupKey, if_neg hp] at h
      simp only [keysOf, List.map_cons, List.mem_cons]
      exact Or.inr (ih h)

theorem lookupKey_of_sublist (x : Int) {l' l : List (Int × α)}
    (hsub : l'.Sublist l) (hnd : (keysOf l).Nodup) (m : α)
    (h : lookupKey x l' = some m) : lookupKey x l = some m := by
  induction hsub with
  | slnil => exact h
  | cons p hsub ih =>
    rename_i l1 l2
    simp only [keysOf, List.map_cons, List.nodup_cons] at hnd
    by_cases hp : p.1 = x
    · exfalso
      have hx : x ∈ keysOf l1 := lookupKey_mem_keysOf x l1 m h
      have hx2 : x ∈ keysOf l2 := (hsub.map Prod.fst).mem hx
      exact hnd.1 (hp ▸ hx2)
    · simp only [lookupKey, if_neg hp]
      exact ih hnd.2 h
  | cons₂ p hsub ih =>
    rename_i l1 l2
    simp only [keysOf, List.map_cons, List.nodup_cons] at hnd
    by_cases hp : p.1 = x
    · simpa [lookupKey, hp] using h
    · simp only [lookupKey, if_neg hp] at h ⊢
      exact ih hnd.2 h

theorem mem_keysOf_insertKey (y x : Int) (v : α) (l : List (Int × α)) :
    y ∈ keysOf (insertKey x v l) ↔ y = x ∨ y ∈ keysOf l := by
  induction l with
  | nil => simp [insertKey, keysOf]
  | cons p ps ih =>
    by_cases hp : p.1 = x
    · simp [insertKey, hp, keysOf]
    · simp [insertKey, hp, keysOf] at ih ⊢
      tauto

theorem keysOf_insertKey_nodup (x : Int) (v : α) (l : List (Int × α))
    (hnd : (keysOf l).Nodup) : (keysOf (insertKey x v l)).Nodup := by
  induction l with
  | nil => simp [insertKey, keysOf]
  | cons p ps ih =>
    simp only [keysOf, List.map_cons, List.nodup_cons] at hnd
    by_cases hp : p.1 = x
    · simp only [insertKey, if_pos hp, keysOf, List.map_cons, List.nodup_cons]
      exact ⟨fun hmem => hnd.1 (hp ▸ hmem), hnd.2⟩
    · simp only [insertKey, if_neg hp, keysOf, List.map_cons, List.nodup_cons]
      refine ⟨?_, ih hnd.2⟩
      intro hmem
      rcases (mem_keysOf_insertKey p.1 x v ps).mp hmem with h | h
      · exact hp h
      · exact hnd.1 h

theorem Tidy_op (b : Buffer M) (t : Int) : (b.Tidy t).op = b.op := by
  unfold Buffer.Tidy
  split
  · rfl
  · dsimp only
    split <;> rfl

theorem Read_none_of_can_false (b : Buffer M) (t x : Int)
    (h : ∀ m, lookupKey x b.tidy = some m → m.can b.op t = false) :
    (b.Read t x).2 = none := by
  unfold Buffer.Read
  cases hs : lookupKey x b.store with
  | none => rfl
  | some v =>
    cases hm : lookupKey x b.tidy with
    | none => rfl
    | some m => simp [h m hm]

/-! ### Claim theorems -/

/-- C1: on a buffer in the default configuration (`Len = 10`,
`Cap = 20`, matching the constants `Tidy` actually consults) holding 21
entries, all of them valid, `Tidy` leaves 15 entries — not at most the
configured target length 10. The trim loop's bound `len(b.tidy)-stdLen`
shrinks as it deletes, so only about half of the excess is evicted; the
claimed reduction to at most `targetLength` does not happen. -/
theorem C1_tidy_does_not_trim_to_target :
    exampleOverCap.op.Len = 10 ∧ exampleOverCap.op.Cap = 20 ∧
    exampleOverCap.tidy.length = 21 ∧
    (∀ p ∈ exampleOverCap.tidy, p.2.can exampleOverCap.op 100 = true) ∧
    (exampleOverCap.Tidy 100).tidy.length = 15 ∧
    ¬ (exampleOverCap.Tidy 100).tidy.length ≤ 10 := by decide

/-- C2: a buffer configured with `Cap = 3` holding 4 valid entries
exceeds its configured capacity, yet `Tidy` changes nothing, because the
no-op test compares against the package constant `stdCap = 20`, not the
configured capacity. -/
theorem C2_tidy_noop_past_configured_capacity :
    exampleSmallCap.op.Cap = 3 ∧
    exampleSmallCap.tidy.length = 4 ∧
    exampleSmallCap.op.Cap < (exampleSmallCap.tidy.length : Int) ∧
    exampleSmallCap.Tidy 0 = exampleSmallCap := by decide

/-- C5: writing a payload into a buffer whose metric table is below the
capacity threshold (so the write's `Tidy` is a no-op and evicts nothing)
and immediately reading the returned key yields that payload, for any
positive `Timeout` and `Limit`. -/
theorem C5_write_read_round_trip (b : Buffer M) (msg : M) (t0 : Int)
    (hcap : b.tidy.length < stdCap)
    (hT : (0 : ℚ) < b.op.Timeout) (hL : 0 < b.op.Limit) :
    ((b.Write t0 msg).1.Read t0 ((b.Write t0 msg).2)).2 = some msg := by
  have hx := lookupKey_insertKey_self (b.iter + 1) msg b.store
  have hm := lookupKey_insertKey_self (b.iter + 1) ((newMetric (b.iter + 1)).Incr t0) b.tidy
  have hlen := length_insertKey_le (b.iter + 1) ((newMetric (b.iter + 1)).Incr t0) b.tidy
  have hle : (insertKey (b.iter + 1) ((newMetric (b.iter + 1)).Incr t0) b.tidy).length ≤ stdCap := by
    omega
  have hcan : ((newMetric (b.iter + 1)).Incr t0).can b.op t0 = true := by
    simp only [metric.can, metric.Incr, newMetric, Bool.and_eq_true, decide_eq_true_eq]
    constructor
    · simp only [sub_self, Int.cast_zero]
      exact le_of_lt hT
    · omega
  simp only [Buffer.Write]
  rw [Tidy_noop _ _ hle]
  simp [Buffer.Read, hx, hm, hcan]

/-- Witness for C5: a fresh default-configuration buffer, write of
payload 5 at time 100, immediate read back. -/
theorem C5_write_read_round_trip_witness :
    (freshBuf.tidy.length < stdCap ∧ (0 : ℚ) < freshBuf.op.Timeout ∧
      0 < freshBuf.op.Limit) ∧
    ((freshBuf.Write 100 5).1.Read 100 ((freshBuf.Write 100 5).2)).2 = some 5 :=
  ⟨⟨by decide, by decide, by decide⟩,
    C5_write_read_round_trip freshBuf 5 100 (by decide) (by decide) (by decide)⟩

theorem lookupKey_insertKey_ne (x y : Int) (v : α) (l : List (Int × α))
    (hne : y ≠ x) : lookupKey x (insertKey y v l) = lookupKey x l := by
  induction l with
  | nil => simp [insertKey, lookupKey, hne]
  | cons p ps ih =>
    by_cases hp : p.1 = y
    · simp [insertKey, hp, lookupKey, hne]
    · simp [insertKey, hp, lookupKey, ih]

theorem lookupKey_updateKey_ne (x y : Int) (f : α → α) (l : List (Int × α))
    (hne : y ≠ x) : lookupKey x (updateKey y f l) = lookupKey x l := by
  induction l with
  | nil => simp [updateKey, lookupKey]
  | cons p ps ih =>
    by_cases hp : p.1 = y
    · simp [updateKey, hp, lookupKey, hne, ih]
    · simp [updateKey, hp, lookupKey, ih]

theorem Tidy_iter (b : Buffer M) (t : Int) : (b.Tidy t).iter = b.iter := by
  unfold Buffer.Tidy
  split
  · rfl
  · dsimp only
    split <;> rfl

theorem Tidy_lookup_preserve (b : Buffer M) (t x : Int) (m0 : metric)
    (hnd : (keysOf b.tidy).Nodup)
    (hl : lookupKey x b.tidy = some m0 ∨ lookupKey x b.tidy = none) :
    lookupKey x (b.Tidy t).tidy = some m0 ∨ lookupKey x (b.Tidy t).tidy = none := by
  cases h2 : lookupKey x (b.Tidy t).tidy with
  | none => exact Or.inr rfl
  | some m1 =>
    have := lookupKey_of_sublist x (Tidy_tidy_sublist b t) hnd m1 h2
    rcases hl with hl | hl
    · rw [this] at hl
      exact Or.inl (by rw [Option.some.inj hl])
    · rw [this] at hl
      exact absurd hl (by simp)

theorem Tidy_aligned_nodup (b : Buffer M) (t : Int)
    (hnd : (keysOf b.tidy).Nodup) : (keysOf (b.Tidy t).tidy).Nodup :=
  hnd.sublist ((Tidy_tidy_sublist b t).map Prod.fst)

theorem step_keeps_written (b : Buffer M) (o : BOp M) (x : Int) (m0 : metric)
    (hx : x ≤ b.iter) (hnd : (keysOf b.tidy).Nodup)
    (hl : lookupKey x b.tidy = some m0 ∨ lookupKey x b.tidy = none)
    (ho : ∀ t2, o ≠ BOp.read t2 x) :
    x ≤ (b.step o).iter ∧ (keysOf (b.step o).tidy).Nodup ∧
      (lookupKey x (b.step o).tidy = some m0 ∨ lookupKey x (b.step o).tidy = none) ∧
      (b.step o).op = b.op := by
  cases o with
  | write t msg2 =>
    simp only [Buffer.step, Buffer.Write]
    have hne : b.iter + 1 ≠ x := by omega
    have hnd1 : (keysOf (insertKey (b.iter + 1) ((newMetric (b.iter + 1)).Incr t) b.tidy)).Nodup :=
      keysOf_insertKey_nodup _ _ _ hnd
    have hl1 : lookupKey x (insertKey (b.iter + 1) ((newMetric (b.iter + 1)).Incr t) b.tidy)
        = some m0 ∨
        lookupKey x (insertKey (b.iter + 1) ((newMetric (b.iter + 1)).Incr t) b.tidy)
        = none := by
      rw [lookupKey_insertKey_ne x (b.iter + 1) _ b.tidy hne]
      exact hl
    refine ⟨?_, ?_, ?_, ?_⟩
    · rw [Tidy_iter]
      show x ≤ b.iter + 1
      omega
    · exact (Tidy_aligned_nodup _ t hnd1)
    · exact Tidy_lookup_preserve _ t x m0 hnd1 hl1
    · rw [Tidy_op]
  | read t y =>
    have hyx : y ≠ x := by
      intro he
      exact ho t (by rw [he])
    simp only [Buffer.step]
    unfold Buffer.Read
    cases hs : lookupKey y b.store with
    | none => exact ⟨hx, hnd, hl, rfl⟩
    | some v =>
      cases hm : lookupKey y b.tidy with
      | none => exact ⟨hx, hnd, hl, rfl⟩
      | some m =>
        by_cases hc : m.can b.op t
        · simp only [hc, if_true]
          refine ⟨hx, ?_, ?_, by simp⟩
          · rw [keysOf_updateKey]
            exact hnd
          · rw [lookupKey_updateKey_ne x y _ b.tidy hyx]
            exact hl
        · simp only [hc, if_false]
          exact ⟨hx, hnd, hl, by simp⟩
  | exist t y => exact ⟨hx, hnd, hl, rfl⟩
  | tidy t =>
    simp only [Buffer.step]
    refine ⟨?_, ?_, ?_, Tidy_op b t⟩
    · rw [Tidy_iter]
      exact hx
    · exact Tidy_aligned_nodup b t hnd
    · exact Tidy_lookup_preserve b t x m0 hnd hl

theorem runOps_keeps_written (ops : List (BOp M)) :
    ∀ (b : Buffer M) (x : Int) (m0 : metric),
      x ≤ b.iter → (keysOf b.tidy).Nodup →
      (lookupKey x b.tidy = some m0 ∨ lookupKey x b.tidy = none) →
      (∀ o ∈ ops, ∀ t2, o ≠ BOp.read t2 x) →
      (lookupKey x (b.runOps ops).tidy = some m0 ∨
        lookupKey x (b.runOps ops).tidy = none) ∧
        (b.runOps ops).op = b.op := by
  induction ops with
  | nil => intro b x m0 _ _ hl _; exact ⟨hl, rfl⟩
  | cons o ops ih =>
    intro b x m0 hx hnd hl hops
    obtain ⟨h1, h2, h3, h4⟩ := step_keeps_written b o x m0 hx hnd hl
      (hops o (List.mem_cons_self o ops))
    obtain ⟨h5, h6⟩ := ih (b.step o) x m0 h1 h2 h3
      (fun o2 ho2 => hops o2 (List.mem_cons_of_mem o ho2))
    exact ⟨h5, h6.trans h4⟩

/-- C4: a key written at time `t0` and never read afterwards — any other
operations (further writes, reads of other keys, probes, tidy passes) may
happen in between — is absent from a `Read` at any time `t` with `t - t0`
strictly beyond `Timeout`: either something evicted the entry, or its
metric (whose `recent` stays `t0`) now fails the TTL check. -/
theorem C4_ttl_read_absent (b : Buffer M) (msg : M) (t0 : Int)
    (ops : List (BOp M)) (t : Int)
    (hnd : (keysOf b.tidy).Nodup)
    (hops : ∀ o ∈ ops, ∀ t2, o ≠ BOp.read t2 ((b.Write t0 msg).2))
    (ht : b.op.Timeout < ((t - t0 : Int) : ℚ)) :
    (((b.Write t0 msg).1.runOps ops).Read t ((b.Write t0 msg).2)).2 = none := by
  have hnd1 : (keysOf (insertKey (b.iter + 1)
      ((newMetric (b.iter + 1)).Incr t0) b.tidy)).Nodup :=
    keysOf_insertKey_nodup _ _ _ hnd
  have hbase : lookupKey (b.iter + 1)
      (insertKey (b.iter + 1) ((newMetric (b.iter + 1)).Incr t0) b.tidy)
      = some ((newMetric (b.iter + 1)).Incr t0) := lookupKey_insertKey_self _ _ _
  have hx1 : b.iter + 1 ≤ ((b.Write t0 msg).1).iter := by
    simp only [Buffer.Write]
    rw [Tidy_iter]
  have hnd2 : (keysOf ((b.Write t0 msg).1).tidy).Nodup := by
    simp only [Buffer.Write]
    exact Tidy_aligned_nodup _ t0 hnd1
  have hl2 : lookupKey (b.iter + 1) ((b.Write t0 msg).1).tidy
      = some ((newMetric (b.iter + 1)).Incr t0) ∨
      lookupKey (b.iter + 1) ((b.Write t0 msg).1).tidy = none := by
    simp only [Buffer.Write]
    exact Tidy_lookup_preserve _ t0 _ _ hnd1 (Or.inl hbase)
  obtain ⟨hkeep, hop⟩ := runOps_keeps_written ops ((b.Write t0 msg).1) (b.iter + 1)
    ((newMetric (b.iter + 1)).Incr t0) hx1 hnd2 hl2 hops
  have hop2 : (((b.Write t0 msg).1).runOps ops).op = b.op := by
    rw [hop]
    simp only [Buffer.Write]
    rw [Tidy_op]
  apply Read_none_of_can_false
  intro m hm
  have hm2 : lookupKey (b.iter + 1) ((b.Write t0 msg).1.runOps ops).tidy = some m := hm
  rcases hkeep with hk | hk
  · rw [hm2] at hk
    obtain rfl : m = (newMetric (b.iter + 1)).Incr t0 := Option.some.inj hk
    rw [hop2]
    simp only [metric.can, metric.Incr, newMetric, Bool.and_eq_false_iff,
      decide_eq_false_iff_not, not_le]
    exact Or.inl ht
  · rw [hm2] at hk
    exact absurd hk (by simp)

/-- Witness for C4: fresh default buffer, write at time 100, one
intervening write of another key, read back at time 111 (11 seconds past
the write, beyond the 10-second TTL). -/
theorem C4_ttl_read_absent_witness :
    ((keysOf freshBuf.tidy).Nodup ∧
      (∀ o ∈ [BOp.write 105 (6 : Nat)], ∀ t2,
        o ≠ BOp.read t2 ((freshBuf.Write 100 5).2)) ∧
      freshBuf.op.Timeout < ((111 - 100 : Int) : ℚ)) ∧
    (((freshBuf.Write 100 5).1.runOps [BOp.write 105 6]).Read 111
        ((freshBuf.Write 100 5).2)).2 = none :=
  ⟨⟨by decide,
    by
      intro o ho t2
      simp only [List.mem_singleton] at ho
      subst ho
      simp,
    by decide⟩,
    C4_ttl_read_absent freshBuf 5 100 [BOp.write 105 6] 111 (by decide)
      (by
        intro o ho t2
        simp only [List.mem_singleton] at ho
        subst ho
        simp)
      (by decide)⟩

theorem Read_frozen (b : Buffer M) (t x : Int) (m : metric)
    (hm : lookupKey x b.tidy = some m) (hused : b.op.Limit < m.used) :
    b.Read t x = (b, none) := by
  unfold Buffer.Read
  cases hs : lookupKey x b.store with
  | none => rfl
  | some v =>
    rw [hm]
    have : m.can b.op t = false := by
      simp only [metric.can, Bool.and_eq_false_iff, decide_eq_false_iff_not, not_le]
      exact Or.inr hused
    simp [this]

theorem readsAt_all_none (b : Buffer M) (x : Int) (m : metric)
    (hm : lookupKey x b.tidy = some m) (hused : b.op.Limit < m.used) :
    ∀ ts : List Int, b.readsAt x ts = (b, ts.map fun _ => none) := by
  intro ts
  induction ts with
  | nil => rfl
  | cons t ts ih =>
    simp [Buffer.readsAt, Read_frozen b t x m hm hused, ih]

theorem readsAt_spec (x : Int) (ts : List Int) :
    ∀ (b : Buffer M) (v : M) (m : metric),
      lookupKey x b.store = some v → lookupKey x b.tidy = some m →
      chainOk b.op m.recent ts = true →
      (b.readsAt x ts).2 = (List.range ts.length).map
        (fun i : Nat => if m.used + (i : Int) ≤ b.op.Limit then some v else none) := by
  induction ts with
  | nil => intro b v m _ _ _; rfl
  | cons t ts ih =>
    intro b v m hs hm hchain
    simp only [chainOk, Bool.and_eq_true, decide_eq_true_eq] at hchain
    obtain ⟨hT, hchain⟩ := hchain
    by_cases hu : m.used ≤ b.op.Limit
    · have hcan : m.can b.op t = true := by
        simp only [metric.can, Bool.and_eq_true, decide_eq_true_eq]
        exact ⟨hT, hu⟩
      have hread : b.Read t x =
          ({ b with tidy := updateKey x (fun mm => mm.Incr t) b.tidy }, some v) := by
        unfold Buffer.Read
        rw [hs, hm]
        simp [hcan]
      have hs' : lookupKey x
          ({ b with tidy := updateKey x (fun mm => mm.Incr t) b.tidy } : Buffer M).store = some v := hs
      have hm' : lookupKey x
          ({ b with tidy := updateKey x (fun mm => mm.Incr t) b.tidy } : Buffer M).tidy
          = some (m.Incr t) := lookupKey_updateKey_self x _ b.tidy m hm
      have hchain' : chainOk
          ({ b with tidy := updateKey x (fun mm => mm.Incr t) b.tidy } : Buffer M).op
          (m.Incr t).recent ts = true := by
        simpa [metric.Incr] using hchain
      simp only [Buffer.readsAt, hread]
      rw [ih _ v (m.Incr t) hs' hm' hchain']
      dsimp only
      rw [List.length_cons, List.range_succ_eq_map, List.map_cons, List.map_map]
      congr 1
      · have h0 : m.used + ((0 : Nat) : Int) ≤ b.op.Limit := by simpa using hu
        rw [if_pos h0]
      · apply List.map_congr_left
        intro a _
        simp only [Function.comp, metric.Incr]
        have hiff : m.used + 1 + (a : Int) ≤ b.op.Limit ↔
            m.used + ((Nat.succ a : Nat) : Int) ≤ b.op.Limit := by
          push_cast
          omega
        exact if_congr hiff rfl rfl
    · push_neg at hu
      have hread : b.Read t x = (b, none) := Read_frozen b t x m hm hu
      simp only [Buffer.readsAt, hread]
      rw [readsAt_all_none b x m hm hu ts]
      have hall : ∀ a ∈ List.range (t :: ts).length,
          (fun i : Nat => if m.used + (i : Int) ≤ b.op.Limit then some v else none) a
            = (fun _ => (none : Option M)) a := by
        intro a _
        simp only
        rw [if_neg]
        omega
      rw [List.map_congr_left hall]
      simp [List.map_const', List.replicate_succ]

/-- C3: `Write` installs a metric with access count 1 (the write is the
first use), and a sequence of `Read`s of the assigned key, each within
the TTL of the previous touch, succeeds for exactly the first `Limit`
reads and is absent from the `(Limit+1)`-th read on. The write's `Tidy`
is a no-op (count below the capacity threshold), so nothing evicts the
entry. -/
theorem C3_access_limit_reads (b : Buffer M) (msg : M) (t0 : Int) (ts : List Int)
    (hL : 0 < b.op.Limit)
    (hcap : b.tidy.length < stdCap)
    (hchain : chainOk b.op t0 ts = true) :
    lookupKey ((b.Write t0 msg).2) ((b.Write t0 msg).1.tidy)
        = some { x := (b.Write t0 msg).2, recent := t0, used := 1 } ∧
    ((b.Write t0 msg).1.readsAt ((b.Write t0 msg).2) ts).2
      = (List.range ts.length).map
          (fun i : Nat => if (i : Int) + 1 ≤ b.op.Limit then some msg else none) := by
  have hlen := length_insertKey_le (b.iter + 1) ((newMetric (b.iter + 1)).Incr t0) b.tidy
  have hle : (insertKey (b.iter + 1) ((newMetric (b.iter + 1)).Incr t0) b.tidy).length
      ≤ stdCap := by omega
  have hx := lookupKey_insertKey_self (b.iter + 1) msg b.store
  have hm := lookupKey_insertKey_self (b.iter + 1) ((newMetric (b.iter + 1)).Incr t0) b.tidy
  have hmetric : (newMetric (b.iter + 1)).Incr t0
      = { x := b.iter + 1, recent := t0, used := 1 } := by
    simp [newMetric, metric.Incr]
  simp only [Buffer.Write]
  rw [Tidy_noop _ _ hle]
  refine ⟨?_, ?_⟩
  · show lookupKey (b.iter + 1)
        (insertKey (b.iter + 1) ((newMetric (b.iter + 1)).Incr t0) b.tidy) = _
    rw [hm, hmetric]
  · rw [readsAt_spec (b.iter + 1) ts _ msg ((newMetric (b.iter + 1)).Incr t0) hx hm
      (by simpa [metric.Incr, newMetric] using hchain)]
    apply List.map_congr_left
    intro a _
    have hiff : ((newMetric (b.iter + 1)).Incr t0).used + (a : Int) ≤ b.op.Limit ↔
        (a : Int) + 1 ≤ b.op.Limit := by
      simp [newMetric, metric.Incr]
      omega
    exact if_congr hiff rfl rfl

/-- Witness for C3: fresh default buffer (`Limit = 5`), write at time
100, six reads at times 100..105 (all within TTL). -/
theorem C3_access_limit_reads_witness :
    (0 < freshBuf.op.Limit ∧ freshBuf.tidy.length < stdCap ∧
      chainOk freshBuf.op 100 [100, 101, 102, 103, 104, 105] = true) ∧
    (lookupKey ((freshBuf.Write 100 5).2) ((freshBuf.Write 100 5).1.tidy)
        = some { x := (freshBuf.Write 100 5).2, recent := 100, used := 1 } ∧
     ((freshBuf.Write 100 5).1.readsAt ((freshBuf.Write 100 5).2)
         [100, 101, 102, 103, 104, 105]).2
       = (List.range 6).map
           (fun i : Nat => if (i : Int) + 1 ≤ freshBuf.op.Limit then some 5 else none)) :=
  ⟨⟨by decide, by decide, by decide⟩,
    C3_access_limit_reads freshBuf 5 100 [100, 101, 102, 103, 104, 105]
      (by decide) (by decide) (by decide)⟩

/-- C6: `Validate` is true exactly when `Len > 0`, `Timeout > 0`,
`Limit > 0` and `Cap > Len` hold for the built options, and `New` /
`NewSingle` fail with `ErrInvalidValue` (yielding no cache value) exactly
when `Validate` is false. -/
theorem C6_config_validation (M : Type) (options : List OptionFunc) :
    ((buildOpt options).Validate = true ↔
      (0 < (buildOpt options).Len ∧ (0 : ℚ) < (buildOpt options).Timeout ∧
       0 < (buildOpt options).Limit ∧ (buildOpt options).Len < (buildOpt options).Cap)) ∧
    (New M options = Except.error BufErr.ErrInvalidValue ↔
      (buildOpt options).Validate = false) ∧
    (NewSingle M options = Except.error BufErr.ErrInvalidValue ↔
      (buildOpt options).Validate = false) := by
  refine ⟨?_, ?_, ?_⟩
  · simp [Opt.Validate, and_assoc]
  · cases h : (buildOpt options).Validate <;> simp [New, h]
  · cases h : (buildOpt options).Validate <;> simp [NewSingle, h]

theorem keysOf_eraseKey_congr (x : Int) :
    ∀ (st : List (Int × α)) (td : List (Int × β)),
      keysOf st = keysOf td →
      keysOf (eraseKey x st) = keysOf (eraseKey x td) := by
  intro st
  induction st with
  | nil =>
    intro td h
    have htd : td = [] := by
      cases td with
      | nil => rfl
      | cons q td2 => simp [keysOf] at h
    subst htd
    rfl
  | cons p st2 ih =>
    intro td h
    cases td with
    | nil => simp [keysOf] at h
    | cons q td2 =>
      simp only [keysOf, List.map_cons, List.cons.injEq] at h
      obtain ⟨hpq, htail⟩ := h
      simp only [eraseKey]
      by_cases hx : p.1 = x
      · rw [if_pos hx, if_pos (hpq ▸ hx)]
        exact htail
      · rw [if_neg hx, if_neg (fun hq => hx (hpq ▸ hq))]
        simp only [keysOf, List.map_cons]
        rw [hpq]
        exact congrArg (List.cons q.1) (ih td2 htail)

theorem keysOf_insertKey_congr (x : Int) (v : α) (w : β) :
    ∀ (st : List (Int × α)) (td : List (Int × β)),
      keysOf st = keysOf td →
      keysOf (insertKey x v st) = keysOf (insertKey x w td) := by
  intro st
  induction st with
  | nil =>
    intro td h
    have htd : td = [] := by
      cases td with
      | nil => rfl
      | cons q td2 => simp [keysOf] at h
    subst htd
    rfl
  | cons p st2 ih =>
    intro td h
    cases td with
    | nil => simp [keysOf] at h
    | cons q td2 =>
      simp only [keysOf, List.map_cons, List.cons.injEq] at h
      obtain ⟨hpq, htail⟩ := h
      simp only [insertKey]
      by_cases hx : p.1 = x
      · rw [if_pos hx, if_pos (hpq ▸ hx)]
        simp only [keysOf, List.map_cons]
        rw [htail]
      · rw [if_neg hx, if_neg (fun hq => hx (hpq ▸ hq))]
        simp only [keysOf, List.map_cons]
        rw [hpq]
        exact congrArg (List.cons q.1) (ih td2 htail)

theorem trimLoop_keys_congr (avail : List metric) :
    ∀ (i : Nat) (st : List (Int × M)) (td : List (Int × metric)),
      keysOf st = keysOf td →
      keysOf (trimLoop i avail st td).1 = keysOf (trimLoop i avail st td).2 := by
  induction avail with
  | nil => intro i st td h; simpa [trimLoop] using h
  | cons m rest ih =>
    intro i st td h
    simp only [trimLoop]
    split
    · exact ih (i + 1) _ _ (keysOf_eraseKey_congr m.x st td h)
    · exact h

theorem reap_keys_congr (op : Opt) (t : Int) :
    ∀ (st : List (Int × M)) (td : List (Int × metric)),
      keysOf st = keysOf td → (keysOf td).Nodup →
      keysOf (st.filter fun p =>
          match lookupKey p.1 td with
          | some m => m.can op t
          | none => true)
        = keysOf (td.filter fun p => p.2.can op t) := by
  intro st
  induction st with
  | nil =>
    intro td h _
    have htd : td = [] := by
      cases td with
      | nil => rfl
      | cons q td2 => simp [keysOf] at h
    subst htd
    rfl
  | cons p st2 ih =>
    intro td h hnd
    cases td with
    | nil => simp [keysOf] at h
    | cons q td2 =>
      simp only [keysOf, List.map_cons, List.cons.injEq] at h
      obtain ⟨hpq, htail⟩ := h
      simp only [keysOf, List.map_cons, List.nodup_cons] at hnd
      have hlook : lookupKey p.1 (q :: td2) = some q.2 := by
        simp [lookupKey, hpq.symm]
      have hcongr : (st2.filter fun p2 =>
            match lookupKey p2.1 (q :: td2) with
            | some m => m.can op t
            | none => true)
          = st2.filter fun p2 =>
            match lookupKey p2.1 td2 with
            | some m => m.can op t
            | none => true := by
        apply List.filter_congr
        intro p2 hp2
        have hmem : p2.1 ∈ List.map Prod.fst td2 := by
          rw [← htail]
          exact List.mem_map_of_mem Prod.fst hp2
        have hne : q.1 ≠ p2.1 := fun he => hnd.1 (he ▸ hmem)
        simp [lookupKey, hne]
      rw [List.filter_cons, List.filter_cons]
      simp only [hlook]
      by_cases hc : q.2.can op t = true
      · rw [if_pos (by simpa using hc), if_pos (by simpa using hc)]
        simp only [keysOf, List.map_cons]
        rw [hpq, hcongr]
        exact congrArg (List.cons q.1) (ih td2 htail hnd.2)
      · rw [if_neg (by simpa using hc), if_neg (by simpa using hc)]
        rw [hcongr]
        exact ih td2 htail hnd.2

theorem Tidy_aligned (b : Buffer M) (t : Int)
    (h : keysOf b.store = keysOf b.tidy) (hnd : (keysOf b.tidy).Nodup) :
    keysOf (b.Tidy t).store = keysOf (b.Tidy t).tidy ∧
      (keysOf (b.Tidy t).tidy).Nodup := by
  have hreap := reap_keys_congr b.op t b.store b.tidy h hnd
  unfold Buffer.Tidy
  split
  · exact ⟨h, hnd⟩
  · dsimp only
    split
    · refine ⟨trimLoop_keys_congr _ 0 _ _ hreap, ?_⟩
      exact hnd.sublist
        (((((trimLoop_sublist _ 0 _ _).2).trans (List.filter_sublist b.tidy))).map Prod.fst)
    · refine ⟨hreap, ?_⟩
      exact hnd.sublist ((List.filter_sublist b.tidy).map Prod.fst)

theorem step_aligned (b : Buffer M) (o : BOp M)
    (h : keysOf b.store = keysOf b.tidy) (hnd : (keysOf b.tidy).Nodup) :
    keysOf (b.step o).store = keysOf (b.step o).tidy ∧
      (keysOf (b.step o).tidy).Nodup := by
  cases o with
  | write t msg =>
    simp only [Buffer.step, Buffer.Write]
    apply Tidy_aligned
    · exact keysOf_insertKey_congr (b.iter + 1) msg ((newMetric (b.iter + 1)).Incr t)
        b.store b.tidy h
    · exact keysOf_insertKey_nodup _ _ _ hnd
  | read t x =>
    simp only [Buffer.step]
    unfold Buffer.Read
    cases hs : lookupKey x b.store with
    | none => exact ⟨h, hnd⟩
    | some v =>
      cases hm : lookupKey x b.tidy with
      | none => exact ⟨h, hnd⟩
      | some m =>
        by_cases hc : m.can b.op t
        · simp only [hc, if_true]
          refine ⟨?_, ?_⟩
          · rw [keysOf_updateKey]
            exact h
          · rw [keysOf_updateKey]
            exact hnd
        · simp only [hc, if_false]
          exact ⟨h, hnd⟩
  | exist t x => exact ⟨h, hnd⟩
  | tidy t => exact Tidy_aligned b t h hnd

theorem runOps_aligned (ops : List (BOp M)) :
    ∀ (b : Buffer M),
      keysOf b.store = keysOf b.tidy → (keysOf b.tidy).Nodup →
      keysOf (b.runOps ops).store = keysOf (b.runOps ops).tidy ∧
        (keysOf (b.runOps ops).tidy).Nodup := by
  induction ops with
  | nil => intro b h hnd; exact ⟨h, hnd⟩
  | cons o ops ih =>
    intro b h hnd
    obtain ⟨h1, h2⟩ := step_aligned b o h hnd
    exact ih _ h1 h2

/-- C8: `Read` never deletes — it leaves the payload store untouched and
the metric table's keys unchanged (only the consulted metric's fields
move) — and `Exist` leaves the whole state unchanged, whatever the
metric's validity. -/
theorem C8_read_exist_never_delete (b : Buffer M) (t x : Int) :
    (b.Read t x).1.store = b.store ∧
    keysOf (b.Read t x).1.tidy = keysOf b.tidy ∧
    b.step (BOp.exist t x) = b := by
  refine ⟨?_, ?_, rfl⟩ <;>
  · unfold Buffer.Read
    cases hs : lookupKey x b.store with
    | none => simp
    | some v =>
      cases ht : lookupKey x b.tidy with
      | none => simp
      | some m =>
        by_cases hc : m.can b.op t <;> simp [hc, keysOf_updateKey]

/-- C7: starting from any successfully constructed buffer, after any
sequence of sequential `Write`/`Read`/`Exist`/`Tidy` calls the key list
of the payload store and the key list of the metric table coincide — no
key is ever in one map and not the other. -/
theorem C7_store_metric_key_sets_agree (Mt : Type) (options : List OptionFunc)
    (b0 : Buffer Mt) (h : New Mt options = Except.ok b0) (ops : List (BOp Mt)) :
    keysOf (b0.runOps ops).store = keysOf (b0.runOps ops).tidy := by
  have hval : (buildOpt options).Validate = true := by
    by_contra hv
    rw [Bool.not_eq_true] at hv
    simp [New, hv] at h
  simp [New, hval] at h
  subst h
  exact (runOps_aligned ops _ rfl (by simp [keysOf])).1

/-- Witness for C7: the default-configuration buffer and a short mixed
call sequence. -/
theorem C7_store_metric_key_sets_agree_witness :
    New Nat [] = Except.ok freshBuf ∧
    keysOf ((freshBuf.runOps
        [BOp.write 0 7, BOp.read 0 1, BOp.exist 0 1, BOp.tidy 0, BOp.write 5 9]).store)
      = keysOf ((freshBuf.runOps
        [BOp.write 0 7, BOp.read 0 1, BOp.exist 0 1, BOp.tidy 0, BOp.write 5 9]).tidy) :=
  ⟨by rfl, C7_store_metric_key_sets_agree Nat [] freshBuf (by rfl)
    [BOp.write 0 7, BOp.read 0 1, BOp.exist 0 1, BOp.tidy 0, BOp.write 5 9]⟩

theorem single_step_inv (s : Single M) (o : SOp M) (h : s.metric.x ≤ s.iter) :
    (s.step o).metric.x ≤ (s.step o).iter ∧ s.metric.x ≤ (s.step o).metric.x := by
  cases o with
  | write t msg =>
    simp only [Single.step, Single.Write, metric.Reset]
    constructor
    · exact le_refl _
    · omega
  | read t x =>
    simp only [Single.step, Single.Read]
    split
    · simp only [metric.Incr]
      exact ⟨h, le_refl _⟩
    · exact ⟨h, le_refl _⟩
  | exist t x => exact ⟨h, le_refl _⟩

theorem single_runOps_lb (ops : List (SOp M)) :
    ∀ (s : Single M), s.metric.x ≤ s.iter →
      s.metric.x ≤ (s.runOps ops).metric.x ∧
        (s.runOps ops).metric.x ≤ (s.runOps ops).iter := by
  induction ops with
  | nil => intro s h; exact ⟨le_refl _, h⟩
  | cons o ops ih =>
    intro s h
    obtain ⟨hinv, hmono⟩ := single_step_inv s o h
    obtain ⟨h1, h2⟩ := ih (s.step o) hinv
    exact ⟨le_trans hmono h1, h2⟩

/-- C9: a single-slot cache holding key `k` (with a still-valid metric)
hands out a strictly greater key on the next `Write`, after which `Read k`
is absent and `Exist k` is false, and stays so after any further sequence
of calls: the old key is permanently unreadable. -/
theorem C9_single_overwrite (s : Single M) (msg : M) (t k : Int)
    (hk : s.metric.x = k) (hiter : k ≤ s.iter)
    (hvalid : s.metric.can s.op t = true) :
    k < (s.Write t msg).2 ∧
    ∀ (ops : List (SOp M)) (t2 : Int),
      (((s.Write t msg).1.runOps ops).Read t2 k).2 = none ∧
      ((s.Write t msg).1.runOps ops).Exist t2 k = false := by
  have hw : (s.Write t msg).1.metric.x = s.iter + 1 := by
    simp [Single.Write, metric.Reset]
  have hwi : (s.Write t msg).1.iter = s.iter + 1 := by
    simp [Single.Write]
  constructor
  · show k < s.iter + 1
    omega
  · intro ops t2
    obtain ⟨hmono, _⟩ := single_runOps_lb ops (s.Write t msg).1 (by rw [hw, hwi])
    rw [hw] at hmono
    have hne : ((s.Write t msg).1.runOps ops).metric.x ≠ k := by omega
    constructor
    · simp [Single.Read, hne]
    · simp [Single.Exist, hne]

/-- Witness for C9: single-slot cache on key 1 (valid at time 100),
overwritten at time 100, probed at key 1 after one further read. -/
theorem C9_single_overwrite_witness :
    (singleLive.metric.x = 1 ∧ (1 : Int) ≤ singleLive.iter ∧
      singleLive.metric.can singleLive.op 100 = true) ∧
    (1 < (singleLive.Write 100 5).2 ∧
      (((singleLive.Write 100 5).1.runOps [SOp.read 101 2]).Read 103 1).2 = none ∧
      ((singleLive.Write 100 5).1.runOps [SOp.read 101 2]).Exist 103 1 = false) :=
  ⟨⟨by decide, by decide, by decide⟩,
    ⟨(C9_single_overwrite singleLive 5 100 1 (by decide) (by decide) (by decide)).1,
     ((C9_single_overwrite singleLive 5 100 1 (by decide) (by decide) (by decide)).2
        [SOp.read 101 2] 103).1,
     ((C9_single_overwrite singleLive 5 100 1 (by decide) (by decide) (by decide)).2
        [SOp.read 101 2] 103).2⟩⟩

/-- C10: a freshly constructed single-slot cache (metric `newMetric(0)`:
key 0, zero `recent`, zero `used`) answers every `Read`/`Exist` absent
once the current time exceeds `Timeout` seconds after the epoch; the key
0 does match the metric's key field, and the access count passes its
check, so absence rests on the TTL comparison alone. -/
theorem C10_fresh_single_unreadable (M : Type) (options : List OptionFunc)
    (s : Single M) (h : NewSingle M options = Except.ok s) (x t : Int)
    (ht : s.op.Timeout < ((t : Int) : ℚ)) :
    s.metric.x = 0 ∧ s.metric.used ≤ s.op.Limit ∧
    (s.Read t x).2 = none ∧ s.Exist t x = false := by
  have hval : (buildOpt options).Validate = true := by
    by_contra hv
    simp [NewSingle, Bool.not_eq_true] at hv
    simp [NewSingle, hv] at h
  simp [NewSingle, hval] at h
  subst h
  have hcan : (newMetric 0).can (buildOpt options) t = false := by
    simp [metric.can, newMetric]
    intro hle
    exact absurd hle (not_le.mpr ht)
  refine ⟨rfl, ?_, ?_, ?_⟩
  · simp only [Opt.Validate, Bool.and_eq_true, decide_eq_true_eq] at hval
    simpa [newMetric] using le_of_lt hval.1.2
  · simp [Single.Read, hcan]
  · simp [Single.Exist, hcan]

/-- Witness for C10 at the default configuration, key 5, time 11. -/
theorem C10_fresh_single_unreadable_witness :
    (NewSingle Nat [] = Except.ok singleFresh ∧
      singleFresh.op.Timeout < ((11 : Int) : ℚ)) ∧
    (singleFresh.metric.x = 0 ∧ singleFresh.metric.used ≤ singleFresh.op.Limit ∧
      (singleFresh.Read 11 5).2 = none ∧ singleFresh.Exist 11 5 = false) :=
  ⟨⟨by rfl, by decide⟩,
    C10_fresh_single_unreadable Nat [] singleFresh (by rfl) 5 11 (by decide)⟩

end BufferGo
